import Mathlib

/-!
Shallow embedding of cargo-neat (src/main.rs).

The tool audits a cargo workspace: it reads the root manifest, errors out
when that manifest is a real (single-package) manifest, and otherwise
collects the keys of the `[workspace.dependencies]` table, scans every
member package removing each dependency's target package name from that
set, optionally records registry-sourced dependencies per package, renders
the findings as sorted trees, and maps the outcome to an exit code.

Modelling conventions:
* strings stand for manifest paths and dependency names;
* a `HashSet<String>` is a duplicate-free `List String`; removal is `filter`;
* the `HashMap<InternedString, Vec<String>>` of policy violations is an
  association list in insertion order (`pushIssue` models
  `entry(..).or_insert(vec![]).push(..)`); draining it in an arbitrary hash
  order is modelled by quantifying over permutations of that list;
* a member package's `deps` list is the concatenation of all of its
  dependency tables (`[dependencies]`, `[dev-dependencies]`, ...), in
  manifest order, so the same name may legitimately occur more than once;
* each dependency carries both the name under which it is written in the
  member's table (`name_in_toml`, the key iterated by
  `LocalManifest::get_dependencies`) and the name of the package it
  resolves to (`package_name()`, used by the unused-set removal loop);
* fallible steps (reading the root manifest, `LocalManifest::try_new` per
  member) are inputs of `Except` type supplied by the external manifest
  reader, and `run` propagates their errors.
-/

namespace CargoNeat

/-- Source classification of a declared dependency, mirroring
`cargo::util::toml_mut::dependency::Source` (registry / path / git /
workspace inheritance) plus `other` for an entry whose `source` attribute
is absent (`e.source = None`, skipped by the `filter_map`). -/
inductive DepSource where
  | workspaceInherited
  | registry
  | path
  | git
  | other
deriving DecidableEq, Repr

/-- One declared dependency of a member package. `nameInToml` is the key as
written in the member's dependency table; `packageName` is the name of the
target package (`Dependency::package_name()`), which differs from
`nameInToml` when the dependency is renamed via `package = "..."`. -/
structure Dep where
  nameInToml : String
  packageName : String
  source : DepSource
deriving DecidableEq, Repr

/-- A member package: its name, the path of its own manifest, and its
declared dependencies (all dependency tables concatenated). -/
structure Package where
  name : String
  manifestPath : String
  deps : List Dep
deriving DecidableEq, Repr

/-- The root manifest as classified by `read_manifest`: either a real
(single-package) manifest or a virtual one carrying the keys of the
`[workspace.dependencies]` table (empty list when the sub-table is
absent). TOML table keys are unique, so the list is duplicate-free for
inputs produced by an actual manifest. -/
inductive Manifest where
  | real
  | virtualManifest (workspaceDependencies : List String)
deriving DecidableEq, Repr

/-- Errors of the pipeline, per the error taxonomy: a manifest that cannot
be read or parsed, a root manifest that is not virtual, and a path that
cannot be canonicalized or rendered. -/
inductive RunError where
  | manifestError
  | configurationError
  | pathError
deriving DecidableEq, Repr

/-! ## Unused-dependency computation -/

/-- `HashSet::remove` on the duplicate-free list modelling the set. -/
def removeName (s : List String) (n : String) : List String :=
  s.filter (fun m => decide (m ≠ n))

/-- One iteration of the member loop: `for dep in pkg.dependencies()`
removes `dep.package_name()` from the running set. -/
def scanUsed (s : List String) (p : Package) : List String :=
  p.deps.foldl (fun acc d => removeName acc d.packageName) s

/-- The running set after all members are scanned: seeded with the
workspace-level dependency names, drained by every member's dependencies. -/
def unused_workspace_dependencies (wsDeps : List String) (members : List Package) :
    List String :=
  members.foldl scanUsed wsDeps

/-- All package names referenced by any member's dependency tables (the
names the removal loop erases). -/
def usedNames (members : List Package) : List String :=
  members.flatMap (fun p => p.deps.map Dep.packageName)

theorem foldl_removeName (names : List String) (s : List String) :
    names.foldl removeName s = s.filter (fun n => decide (n ∉ names)) := by
  induction names generalizing s with
  | nil => simp [List.filter_true]
  | cons n ns ih =>
      simp only [List.foldl_cons, ih, removeName, List.filter_filter]
      apply List.filter_congr
      intro a _
      by_cases h1 : a = n <;> by_cases h2 : a ∈ ns <;>
        simp [h1, h2, List.mem_cons]

theorem scanUsed_eq_foldl (s : List String) (p : Package) :
    scanUsed s p = (p.deps.map Dep.packageName).foldl removeName s := by
  simp [scanUsed, List.foldl_map]

theorem unused_eq_foldl (wsDeps : List String) (members : List Package) :
    unused_workspace_dependencies wsDeps members =
      (usedNames members).foldl removeName wsDeps := by
  induction members generalizing wsDeps with
  | nil => simp [unused_workspace_dependencies, usedNames]
  | cons p rest ih =>
      simp only [unused_workspace_dependencies, List.foldl_cons] at *
      rw [ih (scanUsed wsDeps p), scanUsed_eq_foldl]
      simp [usedNames, List.foldl_append]

/-- Master characterisation: the final running set is the workspace set
filtered by non-membership in the used names, with the workspace list's
order and multiplicity untouched. -/
theorem unused_eq_filter (wsDeps : List String) (members : List Package) :
    unused_workspace_dependencies wsDeps members =
      wsDeps.filter (fun n => decide (n ∉ usedNames members)) := by
  rw [unused_eq_foldl, foldl_removeName]

theorem mem_unused_iff (wsDeps : List String) (members : List Package) (n : String) :
    n ∈ unused_workspace_dependencies wsDeps members ↔
      n ∈ wsDeps ∧ n ∉ usedNames members := by
  rw [unused_eq_filter]
  simp [List.mem_filter]

/-! ## Mandatory-workspace-dependency computation -/

/-- The names of a package's registry-sourced dependencies, in first-seen
order: the loop keeps `(dep, source)` pairs whose source is
`Source::Registry(_)` and pushes `dep` (the name as written in the table). -/
def registryDeps (p : Package) : List String :=
  (p.deps.filter (fun d => decide (d.source = DepSource.registry))).map Dep.nameInToml

/-- `entry(pkg.name()).or_insert(vec![]).push(dep)` on the association list
modelling the `HashMap<InternedString, Vec<String>>` in insertion order. -/
def pushIssue (m : List (String × List String)) (pkg dep : String) :
    List (String × List String) :=
  match m with
  | [] => [(pkg, [dep])]
  | (k, vs) :: rest =>
      if k = pkg then (k, vs ++ [dep]) :: rest
      else (k, vs) :: pushIssue rest pkg dep

/-- One iteration of the member loop for the policy check: guarded by the
`mandatory_workspace_dependencies` flag, it pushes every registry-sourced
dependency name of the package under the package's name. -/
def scanIssues (flag : Bool) (m : List (String × List String)) (p : Package) :
    List (String × List String) :=
  if flag then (registryDeps p).foldl (fun acc d => pushIssue acc p.name d) m
  else m

/-- The violations map after the whole member loop. -/
def mandatory_workspace_dependencies_issues (flag : Bool) (members : List Package) :
    List (String × List String) :=
  members.foldl (scanIssues flag) []

/-- Closed form of the violations map: one entry per member that has at
least one registry-sourced dependency, in traversal order, carrying that
member's registry-sourced names in first-seen order. -/
def issuesOf (members : List Package) : List (String × List String) :=
  members.filterMap (fun p =>
    if registryDeps p = [] then none else some (p.name, registryDeps p))

theorem pushIssue_miss (m : List (String × List String)) (pkg dep : String)
    (h : pkg ∉ m.map Prod.fst) :
    pushIssue m pkg dep = m ++ [(pkg, [dep])] := by
  induction m with
  | nil => rfl
  | cons e rest ih =>
      obtain ⟨k, vs⟩ := e
      simp only [List.map_cons, List.mem_cons] at h
      push_neg at h
      simp [pushIssue, Ne.symm h.1, ih h.2]

theorem pushIssue_hit (acc : List (String × List String)) (n dep : String)
    (vs : List String) (h : n ∉ acc.map Prod.fst) :
    pushIssue (acc ++ [(n, vs)]) n dep = acc ++ [(n, vs ++ [dep])] := by
  induction acc with
  | nil => simp [pushIssue]
  | cons e rest ih =>
      obtain ⟨k, ws⟩ := e
      simp only [List.map_cons, List.mem_cons] at h
      push_neg at h
      simp [pushIssue, Ne.symm h.1, ih h.2]

theorem foldl_pushIssue (ds : List String) (acc : List (String × List String))
    (n : String) (vs : List String) (h : n ∉ acc.map Prod.fst) :
    ds.foldl (fun a d => pushIssue a n d) (acc ++ [(n, vs)]) =
      acc ++ [(n, vs ++ ds)] := by
  induction ds generalizing vs with
  | nil => simp
  | cons d ds ih =>
      simp only [List.foldl_cons, pushIssue_hit acc n d vs h, ih (vs ++ [d])]
      simp

theorem scanIssues_true (acc : List (String × List String)) (p : Package)
    (h : p.name ∉ acc.map Prod.fst) :
    scanIssues true acc p =
      if registryDeps p = [] then acc else acc ++ [(p.name, registryDeps p)] := by
  simp only [scanIssues, if_pos rfl]
  cases hrd : registryDeps p with
  | nil => simp
  | cons d ds =>
      simp only [List.foldl_cons, pushIssue_miss acc p.name d h,
        foldl_pushIssue ds acc p.name [d] h]
      simp

theorem foldl_scanIssues (members : List Package) (acc : List (String × List String))
    (h : ∀ p ∈ members, p.name ∉ acc.map Prod.fst)
    (hnd : (members.map Package.name).Nodup) :
    members.foldl (scanIssues true) acc = acc ++ issuesOf members := by
  induction members generalizing acc with
  | nil => simp [issuesOf]
  | cons p rest ih =>
      simp only [List.map_cons, List.nodup_cons] at hnd
      simp only [List.foldl_cons,
        scanIssues_true acc p (h p (List.mem_cons_self p rest))]
      by_cases hrd : registryDeps p = []
      · rw [if_pos hrd, ih acc (fun q hq => h q (List.mem_cons_of_mem p hq)) hnd.2]
        simp [issuesOf, List.filterMap_cons, hrd]
      · have hacc : ∀ q ∈ rest, q.name ∉ (acc ++ [(p.name, registryDeps p)]).map Prod.fst := by
          intro q hq
          simp only [List.map_append, List.map_cons, List.map_nil, List.mem_append,
            List.mem_singleton]
          rintro (hmem | hname)
          · exact h q (List.mem_cons_of_mem p hq) hmem
          · exact hnd.1 (hname ▸ List.mem_map_of_mem Package.name hq)
        rw [if_neg hrd, ih (acc ++ [(p.name, registryDeps p)]) hacc hnd.2]
        simp [issuesOf, List.filterMap_cons, hrd]

theorem issues_true_eq (members : List Package)
    (hnd : (members.map Package.name).Nodup) :
    mandatory_workspace_dependencies_issues true members = issuesOf members := by
  have h := foldl_scanIssues members [] (by simp) hnd
  simpa [mandatory_workspace_dependencies_issues] using h

theorem issues_false_eq (members : List Package) :
    mandatory_workspace_dependencies_issues false members = [] := by
  have : ∀ acc, members.foldl (scanIssues false) acc = acc := by
    intro acc
    induction members generalizing acc with
    | nil => rfl
    | cons p rest ih => simpa [scanIssues] using ih acc
  simpa [mandatory_workspace_dependencies_issues] using this []

theorem issuesOf_flatMap (members : List Package) :
    (issuesOf members).flatMap Prod.snd = members.flatMap registryDeps := by
  induction members with
  | nil => rfl
  | cons p rest ih =>
      have hcons : issuesOf (p :: rest) =
          (if registryDeps p = [] then [] else [(p.name, registryDeps p)]) ++ issuesOf rest := by
        by_cases hrd : registryDeps p = [] <;> simp [issuesOf, List.filterMap_cons, hrd]
      rw [hcons]
      by_cases hrd : registryDeps p = [] <;> simp [hrd, ih, List.flatMap_cons]

/-! ## Report model and rendering -/

/-- The recursive labelled tree built by `fn tree` (termtree's shape: a
label plus ordered children). -/
inductive RTree where
  | node (label : String) (children : List RTree)

def RTree.label : RTree → String
  | .node l _ => l

def RTree.children : RTree → List RTree
  | .node _ c => c

/-- `fn tree(root, issues)`: one child per `(pkg, deps)` entry, labelled
with `pkg`, whose own children are the dependency names as leaves. -/
def tree (root : String) (issues : List (String × List String)) : RTree :=
  RTree.node root
    (issues.map (fun e => RTree.node e.1 (e.2.map (fun d => RTree.node d []))))

/-- `Vec<String>::sort()`: stable sort in the lexicographic string order. -/
def sortStrings (l : List String) : List String :=
  l.insertionSort (fun a b => a ≤ b)

/-- The order `Vec<(InternedString, Vec<String>)>::sort()` sorts by: the
derived tuple order, i.e. lexicographically by path first and by the
dependency-name vector on ties (`InternedString` compares by string
content). -/
def entryLe (a b : String × List String) : Prop :=
  toLex a ≤ toLex b

instance : DecidableRel entryLe :=
  fun a b => inferInstanceAs (Decidable (toLex a ≤ toLex b))

instance : IsTotal (String × List String) entryLe :=
  ⟨fun a b => le_total (toLex a) (toLex b)⟩

instance : IsTrans (String × List String) entryLe :=
  ⟨fun _ _ _ h1 h2 => le_trans h1 h2⟩

instance : IsAntisymm (String × List String) entryLe :=
  ⟨fun _ _ h1 h2 => toLex_inj.mp (le_antisymm h1 h2)⟩

/-- `mandatory_workspace_dependencies_issues.sort()` on the collected
vector of `(path, names)` entries. -/
def sortEntries (l : List (String × List String)) : List (String × List String) :=
  l.insertionSort entryLe

/-- The path the report attaches to a violating package:
`root_cargo_toml.parent().join(pkg.name()).join("Cargo.toml")`. Note this
is constructed from the package *name*, not taken from the package's own
manifest path. -/
def issuePath (rootParent : String) (pkgName : String) : String :=
  rootParent ++ "/" ++ pkgName ++ "/Cargo.toml"

/-- What a run that reaches the reporting stage produces: whether findings
exist (the `Ok(true)`/`Ok(false)` of `run`), and the tree printed for each
kind of finding (`none` when that kind is empty and nothing is printed). -/
structure Output where
  found : Bool
  unusedTree : Option RTree
  violationTree : Option RTree

/-- The reporting stage of `run`, applied to the final contents of the
unused `HashSet` and the violations `HashMap`, each drained in some
iteration order (the lists given here). -/
def report (rootManifestPath rootParent : String)
    (unusedSet : List String) (issues : List (String × List String)) : Output :=
  if unusedSet = [] ∧ issues = [] then
    { found := false, unusedTree := none, violationTree := none }
  else
    { found := true
      unusedTree :=
        if unusedSet = [] then none
        else some (tree "Unused workspace dependencies :"
          [(rootManifestPath, sortStrings unusedSet)])
      violationTree :=
        if issues = [] then none
        else some (tree "Non workspace dependencies :"
          (sortEntries (issues.map (fun e => (issuePath rootParent e.1, e.2))))) }

/-- Short-circuiting collection of the per-member
`LocalManifest::try_new(pkg.manifest_path())?` results: the first failing
member read aborts the whole run. -/
def collectMembers : List (Except RunError Package) → Except RunError (List Package)
  | [] => .ok []
  | .error e :: _ => .error e
  | .ok p :: rest => (collectMembers rest).map (fun l => p :: l)

/-- `fn run`, from the point where the root manifest has been read: a real
root manifest is a configuration error; a virtual one drives the member
scan and the reporting stage. `rootRead` is the combined result of path
canonicalization, workspace loading and `read_manifest` (all of which
abort with their error on failure); `memberReads` are the per-member
manifest reads in traversal order. -/
def run (flag : Bool) (rootRead : Except RunError Manifest)
    (rootManifestPath rootParent : String)
    (memberReads : List (Except RunError Package)) : Except RunError Output :=
  match rootRead with
  | .error e => .error e
  | .ok .real => .error .configurationError
  | .ok (.virtualManifest wsDeps) =>
      match collectMembers memberReads with
      | .error e => .error e
      | .ok members =>
          .ok (report rootManifestPath rootParent
            (unused_workspace_dependencies wsDeps members)
            (mandatory_workspace_dependencies_issues flag members))

/-- The exit-code mapping in `fn main`: `Ok(false) ↦ 0`, `Ok(true) ↦ 1`,
`Err(_) ↦ 2`. -/
def exit_code (r : Except RunError Output) : Nat :=
  match r with
  | .ok o => if o.found then 1 else 0
  | .error _ => 2

theorem collectMembers_ok (members : List Package) :
    collectMembers (members.map Except.ok) = .ok members := by
  induction members with
  | nil => rfl
  | cons p rest ih => simp [collectMembers, ih, Except.map]

/-! ## Congruence lemmas for the sorted presentation -/

theorem sortStrings_congr {l1 l2 : List String} (h : l1.Perm l2) :
    sortStrings l1 = sortStrings l2 :=
  List.eq_of_perm_of_sorted
    ((List.perm_insertionSort _ l1).trans (h.trans (List.perm_insertionSort _ l2).symm))
    (List.sorted_insertionSort _ l1) (List.sorted_insertionSort _ l2)

theorem sortEntries_congr {l1 l2 : List (String × List String)} (h : l1.Perm l2) :
    sortEntries l1 = sortEntries l2 :=
  List.eq_of_perm_of_sorted
    ((List.perm_insertionSort _ l1).trans (h.trans (List.perm_insertionSort _ l2).symm))
    (List.sorted_insertionSort _ l1) (List.sorted_insertionSort _ l2)

theorem report_congr (rmp rp : String) {u1 u2 : List String}
    {v1 v2 : List (String × List String)} (hu : u1.Perm u2) (hv : v1.Perm v2) :
    report rmp rp u1 v1 = report rmp rp u2 v2 := by
  have hue : (u1 = []) ↔ (u2 = []) :=
    ⟨fun h => ((h ▸ hu : ([] : List String).Perm u2)).symm.eq_nil,
     fun h => ((h ▸ hu.symm : ([] : List String).Perm u1)).symm.eq_nil⟩
  have hve : (v1 = []) ↔ (v2 = []) :=
    ⟨fun h => ((h ▸ hv : ([] : List (String × List String)).Perm v2)).symm.eq_nil,
     fun h => ((h ▸ hv.symm : ([] : List (String × List String)).Perm v1)).symm.eq_nil⟩
  have hs : sortStrings u1 = sortStrings u2 := sortStrings_congr hu
  have hse :
      sortEntries (v1.map (fun e => (issuePath rp e.1, e.2)))
        = sortEntries (v2.map (fun e => (issuePath rp e.1, e.2))) :=
    sortEntries_congr (hv.map _)
  simp only [report, hue, hve, hs, hse]

/-! ## Membership characterisations -/

theorem mem_usedNames (members : List Package) (n : String) :
    n ∈ usedNames members ↔ ∃ p ∈ members, ∃ d ∈ p.deps, d.packageName = n := by
  simp [usedNames, List.mem_flatMap, List.mem_map]

theorem mem_issuesOf (members : List Package) (e : String × List String) :
    e ∈ issuesOf members ↔
      ∃ p ∈ members, registryDeps p ≠ [] ∧ e = (p.name, registryDeps p) := by
  constructor
  · intro h
    obtain ⟨p, hp, hsome⟩ := List.mem_filterMap.mp h
    by_cases hrd : registryDeps p = []
    · rw [if_pos hrd] at hsome
      exact absurd hsome (by simp)
    · rw [if_neg hrd] at hsome
      exact ⟨p, hp, hrd, (Option.some_inj.mp hsome).symm⟩
  · rintro ⟨p, hp, hrd, rfl⟩
    exact List.mem_filterMap.mpr ⟨p, hp, by rw [if_neg hrd]⟩

theorem issuesOf_eq_filter_map (members : List Package) :
    issuesOf members =
      (members.filter (fun p => decide (registryDeps p ≠ []))).map
        (fun p => (p.name, registryDeps p)) := by
  induction members with
  | nil => rfl
  | cons p rest ih =>
      by_cases hrd : registryDeps p = [] <;>
        simp [issuesOf, List.filterMap_cons, List.filter_cons, hrd] <;>
        simpa [issuesOf] using ih

/-! ## Concrete workspaces used as evaluation points -/

/-- `serde = { workspace = true }` in a member table. -/
def serdeDep : Dep :=
  { nameInToml := "serde", packageName := "serde", source := DepSource.workspaceInherited }

/-- `tokio = { workspace = true }` in a member table. -/
def tokioDep : Dep :=
  { nameInToml := "tokio", packageName := "tokio", source := DepSource.workspaceInherited }

/-- `rand = "0.8"` declared straight from the registry. -/
def randReg : Dep :=
  { nameInToml := "rand", packageName := "rand", source := DepSource.registry }

def memberA : Package :=
  { name := "a", manifestPath := "/w/a/Cargo.toml", deps := [serdeDep, tokioDep] }

def memberB : Package :=
  { name := "b", manifestPath := "/w/b/Cargo.toml", deps := [serdeDep] }

def memberC : Package :=
  { name := "c", manifestPath := "/w/c/Cargo.toml", deps := [randReg] }

/-- A member whose table has `foo = { package = "bar", version = "1" }`:
written under the name `foo`, resolving to the package `bar`. -/
def renamedDep : Dep :=
  { nameInToml := "foo", packageName := "bar", source := DepSource.registry }

def renamingPkg : Package :=
  { name := "r", manifestPath := "/w/r/Cargo.toml", deps := [renamedDep] }

/-- A member living in a nested directory, so its manifest path is not
`<root>/<name>/Cargo.toml`. -/
def nestedPkg : Package :=
  { name := "a", manifestPath := "/w/crates/a/Cargo.toml", deps := [randReg] }

/-- A member declaring `rand` from the registry in two dependency tables
(for instance `[dependencies]` and `[dev-dependencies]`). -/
def dupPkg : Package :=
  { name := "p", manifestPath := "/w/p/Cargo.toml", deps := [randReg, randReg] }

/-! ## Claims -/

/-- C1: the unused-dependency computation starts from the workspace-level
dependency names and removes, for every dependency declared by any member
(whatever its source classification), the name the removal loop uses; the
remaining set is the unused set, and whenever every workspace-declared
name is referenced by at least one member the unused set is empty. The
second conjunct makes the source-independence explicit: relabelling every
dependency's source classification leaves the result unchanged. -/
theorem C1_unused_computation (wsDeps : List String) (members : List Package) :
    unused_workspace_dependencies wsDeps members =
        wsDeps.filter (fun n => decide (n ∉ usedNames members))
    ∧ (∀ f : Dep → DepSource,
        unused_workspace_dependencies wsDeps
            (members.map (fun p =>
              { p with deps := p.deps.map (fun d => { d with source := f d }) }))
          = unused_workspace_dependencies wsDeps members)
    ∧ ((∀ n ∈ wsDeps, n ∈ usedNames members) →
        unused_workspace_dependencies wsDeps members = []) := by
  refine ⟨unused_eq_filter wsDeps members, ?_, ?_⟩
  · intro f
    rw [unused_eq_filter, unused_eq_filter]
    apply List.filter_congr
    intro n _
    simp [usedNames, List.flatMap_map, List.map_map, Function.comp]
  · intro h
    rw [unused_eq_filter]
    simp only [List.filter_eq_nil_iff]
    intro n hn
    simp [h n hn]

/-- C1 witness: a workspace declaring `serde` and `tokio`, both referenced
by members, has an empty unused set. -/
theorem C1_unused_computation_witness :
    unused_workspace_dependencies ["serde", "tokio"] [memberA, memberB] = [] :=
  (C1_unused_computation ["serde", "tokio"] [memberA, memberB]).2.2 (by decide)

/-- C2: the exit code is 2 whenever any stage errors (failed root read,
real root manifest, failed member read), and on a successful run it is 0
exactly when both the unused set and the violations map are empty, 1
otherwise. -/
theorem C2_exit_codes (flag : Bool) (rmp rp : String)
    (memberReads : List (Except RunError Package)) :
    (∀ e, exit_code (run flag (.error e) rmp rp memberReads) = 2)
    ∧ exit_code (run flag (.ok .real) rmp rp memberReads) = 2
    ∧ (∀ wsDeps e, collectMembers memberReads = .error e →
        exit_code (run flag (.ok (.virtualManifest wsDeps)) rmp rp memberReads) = 2)
    ∧ (∀ wsDeps members, collectMembers memberReads = .ok members →
        exit_code (run flag (.ok (.virtualManifest wsDeps)) rmp rp memberReads) =
          if unused_workspace_dependencies wsDeps members = []
              ∧ mandatory_workspace_dependencies_issues flag members = []
            then 0 else 1) := by
  refine ⟨fun e => rfl, rfl, ?_, ?_⟩
  · intro wsDeps e h
    simp [run, h, exit_code]
  · intro wsDeps members h
    simp only [run, h, exit_code, report]
    by_cases hc : unused_workspace_dependencies wsDeps members = []
        ∧ mandatory_workspace_dependencies_issues flag members = [] <;>
      simp [hc]

/-- C2 witness: a failed root read exits 2; a successful run with the
unused name `rand` exits 1; a successful clean run exits 0. -/
theorem C2_exit_codes_witness :
    exit_code (run false (.error .manifestError) "/w/Cargo.toml" "/w" []) = 2
    ∧ exit_code (run false (.ok (.virtualManifest ["rand"])) "/w/Cargo.toml" "/w" []) = 1
    ∧ exit_code (run false (.ok (.virtualManifest [])) "/w/Cargo.toml" "/w" []) = 0 := by
  refine ⟨(C2_exit_codes false "/w/Cargo.toml" "/w" []).1 .manifestError, ?_, ?_⟩
  · rw [(C2_exit_codes false "/w/Cargo.toml" "/w" []).2.2.2 ["rand"] [] rfl]
    decide
  · rw [(C2_exit_codes false "/w/Cargo.toml" "/w" []).2.2.2 [] [] rfl]
    decide

/-- C3: with the policy flag on, the violations map has one entry per
member with at least one registry-sourced dependency, carrying that
member's registry-sourced names in first-seen order (`issuesOf` is
literally that closed form); a member without registry-sourced
dependencies contributes no key at all; with the flag off the map is
empty. -/
theorem C3_mandatory_issues (members : List Package)
    (hnd : (members.map Package.name).Nodup) :
    mandatory_workspace_dependencies_issues true members = issuesOf members
    ∧ (∀ p ∈ members, registryDeps p = [] →
        p.name ∉ (mandatory_workspace_dependencies_issues true members).map Prod.fst)
    ∧ mandatory_workspace_dependencies_issues false members = [] := by
  refine ⟨issues_true_eq members hnd, ?_, issues_false_eq members⟩
  intro p hp hrd hkey
  rw [issues_true_eq members hnd] at hkey
  obtain ⟨e, he, hfst⟩ := List.mem_map.mp hkey
  obtain ⟨q, hq, hqrd, rfl⟩ := (mem_issuesOf members e).mp he
  have : q = p := List.inj_on_of_nodup_map hnd hq hp hfst
  exact hqrd (this ▸ hrd)

/-- C3 witness: member `a` uses only workspace-inherited dependencies and
is absent; member `c` declares `rand` from the registry and gets the
single entry; the flag off yields the empty map. -/
theorem C3_mandatory_issues_witness :
    mandatory_workspace_dependencies_issues true [memberA, memberC] = [("c", ["rand"])]
    ∧ mandatory_workspace_dependencies_issues false [memberA, memberC] = [] := by
  have h := C3_mandatory_issues [memberA, memberC] (by decide)
  exact ⟨h.1.trans (by decide), h.2.2⟩

/-- C4: a real (single-package) root manifest makes the run abort with the
configuration error and exit code 2, never an `ok` report. -/
theorem C4_real_root_manifest (flag : Bool) (rmp rp : String)
    (memberReads : List (Except RunError Package)) :
    run flag (.ok .real) rmp rp memberReads = .error RunError.configurationError
    ∧ exit_code (run flag (.ok .real) rmp rp memberReads) = 2 :=
  ⟨rfl, rfl⟩

/-- Modelled from the spec: the removal rule the spec's open question
settles on — "match by the name written in the member's dependency
table". Under that reading, a workspace-declared name is used as soon as
some member's table contains an entry written under that very name
(`nameInToml`), so the predicted unused set filters by `nameInToml`
instead of the target package name. Kept as a second definition to compare
with `unused_workspace_dependencies`, which follows the source. -/
def unused_per_spec_names (wsDeps : List String) (members : List Package) : List String :=
  wsDeps.filter (fun n => decide (¬ ∃ p ∈ members, ∃ d ∈ p.deps, d.nameInToml = n))

/-- C5 counterexample: a member writing `foo = { package = "bar", ... }`
declares an entry under the name `foo`, yet the code leaves the
workspace-declared name `foo` in the unused set (it removes the target
name `bar` instead), while the claim predicts `foo` is removed. -/
theorem C5_counterexample :
    unused_workspace_dependencies ["foo"] [renamingPkg] = ["foo"]
    ∧ unused_per_spec_names ["foo"] [renamingPkg] = []
    ∧ renamingPkg.deps.map Dep.nameInToml = ["foo"] := by
  refine ⟨?_, ?_, rfl⟩ <;> decide

/-- C5 amended: the name used in the unused-set removal is the
dependency's *target package name* (`dep.package_name()`), not the name
written in the member's dependency table — for a renamed dependency the
written alias does not count as used, the underlying package name does. -/
theorem C5_amended_removal_by_package_name (wsDeps : List String)
    (members : List Package) (p : Package) (d : Dep)
    (hp : p ∈ members) (hd : d ∈ p.deps) :
    d.packageName ∉ unused_workspace_dependencies wsDeps members := by
  intro hmem
  exact ((mem_unused_iff wsDeps members d.packageName).mp hmem).2
    ((mem_usedNames members d.packageName).mpr ⟨p, hp, d, hd, rfl⟩)

/-- C5 amended witness: the target name `bar` of the renamed dependency is
never in the unused set. -/
theorem C5_amended_removal_by_package_name_witness :
    "bar" ∉ unused_workspace_dependencies ["foo", "bar"] [renamingPkg] :=
  C5_amended_removal_by_package_name ["foo", "bar"] [renamingPkg] renamingPkg
    renamedDep (List.mem_cons_self renamingPkg []) (List.mem_cons_self renamedDep [])

/-- C6 counterexample: for a member located at
`/w/crates/a/Cargo.toml`, the rendered violation child is labelled with
the constructed path `/w/a/Cargo.toml` (workspace root directory joined
with the package *name*), not with the package's resolved manifest path. -/
theorem C6_counterexample :
    (run true (.ok (.virtualManifest [])) "/w/Cargo.toml" "/w"
        [Except.ok nestedPkg]).map
        (fun o => o.violationTree.map (fun t => t.children.map RTree.label))
      = Except.ok (some ["/w/a/Cargo.toml"])
    ∧ nestedPkg.manifestPath = "/w/crates/a/Cargo.toml"
    ∧ ("/w/a/Cargo.toml" == "/w/crates/a/Cargo.toml") = false := by
  refine ⟨?_, rfl, by decide⟩
  rfl

/-- C6 amended: the rendered violation report has exactly one child per
offending package, labelled with the path obtained by joining the
workspace root directory, the package's name and `Cargo.toml`, and the
children stand in sorted order of that label (tuple order of the sort). -/
theorem C6_amended_grouping (rp : String) (members : List Package)
    (hnd : (members.map Package.name).Nodup) :
    (sortEntries
        ((mandatory_workspace_dependencies_issues true members).map
          (fun e => (issuePath rp e.1, e.2)))).Perm
      ((members.filter (fun p => decide (registryDeps p ≠ []))).map
        (fun p => (issuePath rp p.name, registryDeps p)))
    ∧ List.Sorted entryLe (sortEntries
        ((mandatory_workspace_dependencies_issues true members).map
          (fun e => (issuePath rp e.1, e.2))))
    ∧ (tree "Non workspace dependencies :"
        (sortEntries
          ((mandatory_workspace_dependencies_issues true members).map
            (fun e => (issuePath rp e.1, e.2))))).children.map RTree.label
      = (sortEntries
          ((mandatory_workspace_dependencies_issues true members).map
            (fun e => (issuePath rp e.1, e.2)))).map Prod.fst := by
  refine ⟨?_, List.sorted_insertionSort _ _, ?_⟩
  · rw [issues_true_eq members hnd, issuesOf_eq_filter_map, List.map_map]
    exact List.perm_insertionSort _ _
  · simp [tree, RTree.children, List.map_map, Function.comp, RTree.label]

/-- C6 amended witness: the single offending nested member produces the
single child entry labelled with the constructed path. -/
theorem C6_amended_grouping_witness :
    (sortEntries
        ((mandatory_workspace_dependencies_issues true [nestedPkg]).map
          (fun e => (issuePath "/w" e.1, e.2)))).Perm
      [(issuePath "/w" "a", ["rand"])] := by
  exact (C6_amended_grouping "/w" [nestedPkg] (by decide)).1

/-- C7 counterexample: a member declaring `rand` from the registry in two
dependency tables gets `rand` twice in its rendered violation list, so a
violation name does not appear exactly once in the output. -/
theorem C7_counterexample :
    (run true (.ok (.virtualManifest [])) "/w/Cargo.toml" "/w"
        [Except.ok dupPkg]).map
        (fun o => o.violationTree.map (fun t =>
          (t.children.flatMap (fun c => c.children.map RTree.label)).count "rand"))
      = Except.ok (some 2) := by
  rfl

/-- C7 amended: the unused list is duplicate-free and contains a name iff
it is workspace-declared and unreferenced (so a workspace-declared name
absent from every member appears exactly once, however many members
declare similarly named dependencies); each violation name appears once
per registry-sourced declaration — the rendered leaves are exactly the
concatenation of every member's registry-sourced names, so a name
declared in several of a package's dependency tables appears once per
declaration rather than exactly once. -/
theorem C7_amended_no_information_loss (wsDeps : List String)
    (members : List Package) (hws : wsDeps.Nodup)
    (hnd : (members.map Package.name).Nodup) :
    (sortStrings (unused_workspace_dependencies wsDeps members)).Nodup
    ∧ (∀ n, n ∈ sortStrings (unused_workspace_dependencies wsDeps members) ↔
        n ∈ wsDeps ∧ n ∉ usedNames members)
    ∧ (mandatory_workspace_dependencies_issues true members).flatMap Prod.snd
        = members.flatMap registryDeps := by
  refine ⟨?_, ?_, ?_⟩
  · exact ((List.perm_insertionSort _ _).nodup_iff).mpr
      ((unused_eq_filter wsDeps members) ▸ hws.filter _)
  · intro n
    simp only [sortStrings, List.mem_insertionSort]
    exact mem_unused_iff wsDeps members n
  · rw [issues_true_eq members hnd]
    exact issuesOf_flatMap members

/-- C7 amended witness: `rand` is unused and listed exactly once even
though two members declare dependencies with similar names. -/
theorem C7_amended_no_information_loss_witness :
    (sortStrings (unused_workspace_dependencies ["rand"] [memberA, memberB])).Nodup
    ∧ ("rand" ∈ sortStrings (unused_workspace_dependencies ["rand"] [memberA, memberB])
        ↔ "rand" ∈ ["rand"] ∧ "rand" ∉ usedNames [memberA, memberB]) := by
  have h := C7_amended_no_information_loss ["rand"] [memberA, memberB]
    (by decide) (by decide)
  exact ⟨h.1, h.2.1 "rand"⟩

/-- C8: the pipeline is deterministic and idempotent. `run` and `report`
are functions of their inputs, so two runs on the same manifest set are
definitionally identical; the only internal nondeterminism in the source
is the iteration order in which the unused `HashSet` and the violations
`HashMap` are drained, and this theorem shows any two such orders (any
permutations of the collected contents) render byte-identical reports:
the unused names are sorted lexicographically and the violation entries
sorted by path, never left in traversal or hash order. -/
theorem C8_deterministic_output (flag : Bool) (rmp rp : String)
    (wsDeps : List String) (members : List Package)
    (uo1 uo2 : List String) (vo1 vo2 : List (String × List String))
    (hu1 : uo1.Perm (unused_workspace_dependencies wsDeps members))
    (hu2 : uo2.Perm (unused_workspace_dependencies wsDeps members))
    (hv1 : vo1.Perm (mandatory_workspace_dependencies_issues flag members))
    (hv2 : vo2.Perm (mandatory_workspace_dependencies_issues flag members)) :
    report rmp rp uo1 vo1 = report rmp rp uo2 vo2 :=
  report_congr rmp rp (hu1.trans hu2.symm) (hv1.trans hv2.symm)

/-- C8 witness: draining the two unused names in either hash order renders
the same report. -/
theorem C8_deterministic_output_witness :
    report "/w/Cargo.toml" "/w" ["tokio", "rand"] []
      = report "/w/Cargo.toml" "/w" ["rand", "tokio"] [] :=
  C8_deterministic_output false "/w/Cargo.toml" "/w" ["rand", "tokio"] []
    ["tokio", "rand"] ["rand", "tokio"] [] []
    (List.Perm.swap "rand" "tokio" []) (List.Perm.refl _)
    (List.Perm.refl _) (List.Perm.refl _)

theorem unused_perm_congr (wsDeps : List String) {m1 m2 : List Package}
    (hp : m1.Perm m2) :
    unused_workspace_dependencies wsDeps m1 = unused_workspace_dependencies wsDeps m2 := by
  rw [unused_eq_filter, unused_eq_filter]
  apply List.filter_congr
  intro n _
  exact decide_eq_decide.mpr (not_congr ((hp.flatMap_right _).mem_iff))

theorem issues_perm_congr (flag : Bool) {m1 m2 : List Package} (hp : m1.Perm m2)
    (hnd : (m2.map Package.name).Nodup) :
    (mandatory_workspace_dependencies_issues flag m1).Perm
      (mandatory_workspace_dependencies_issues flag m2) := by
  cases flag with
  | false => rw [issues_false_eq, issues_false_eq]
  | true =>
      have hnd1 : (m1.map Package.name).Nodup := ((hp.map _).nodup_iff).mpr hnd
      rw [issues_true_eq m1 hnd1, issues_true_eq m2 hnd]
      exact hp.filterMap _

theorem run_members_ok (flag : Bool) (wsDeps : List String) (rmp rp : String)
    (members : List Package) :
    run flag (.ok (.virtualManifest wsDeps)) rmp rp (members.map Except.ok)
      = .ok (report rmp rp (unused_workspace_dependencies wsDeps members)
          (mandatory_workspace_dependencies_issues flag members)) := by
  simp [run, collectMembers_ok]

/-- C9: permuting the traversal order of the member packages never changes
the outcome: the whole run (unused set, violation mapping and their
sorted presentation) is identical for any two traversal orders of the
same members. -/
theorem C9_traversal_order_independence (flag : Bool)
    (rootRead : Except RunError Manifest) (rmp rp : String)
    (members1 members2 : List Package) (hp : members1.Perm members2)
    (hnd : (members2.map Package.name).Nodup) :
    run flag rootRead rmp rp (members1.map Except.ok)
      = run flag rootRead rmp rp (members2.map Except.ok) := by
  cases rootRead with
  | error e => rfl
  | ok m =>
      cases m with
      | real => rfl
      | virtualManifest wsDeps =>
          rw [run_members_ok, run_members_ok, unused_perm_congr wsDeps hp]
          exact congrArg Except.ok
            (report_congr rmp rp (List.Perm.refl _) (issues_perm_congr flag hp hnd))

/-- C9 witness: scanning members `c` then `a` equals scanning `a` then
`c`, root manifest and flag fixed. -/
theorem C9_traversal_order_independence_witness :
    run true (.ok (.virtualManifest ["serde"])) "/w/Cargo.toml" "/w"
        ([memberC, memberA].map Except.ok)
      = run true (.ok (.virtualManifest ["serde"])) "/w/Cargo.toml" "/w"
        ([memberA, memberC].map Except.ok) :=
  C9_traversal_order_independence true (.ok (.virtualManifest ["serde"]))
    "/w/Cargo.toml" "/w" [memberC, memberA] [memberA, memberC]
    (List.Perm.swap memberA memberC []) (by decide)

/-- C10: every name in the violation mapping traces back to a
registry-sourced dependency of the package it is filed under; in
particular a workspace with no registry-sourced member dependency (only
path, git, workspace-inherited or unclassified ones) has an empty
mapping. -/
theorem C10_only_registry_sourced (members : List Package)
    (hnd : (members.map Package.name).Nodup) :
    (∀ e ∈ mandatory_workspace_dependencies_issues true members, ∀ n ∈ e.2,
      ∃ p, p ∈ members ∧ p.name = e.1 ∧
        ∃ d, d ∈ p.deps ∧ d.source = DepSource.registry ∧ d.nameInToml = n)
    ∧ ((∀ p ∈ members, ∀ d ∈ p.deps, ¬ d.source = DepSource.registry) →
        mandatory_workspace_dependencies_issues true members = []) := by
  constructor
  · intro e he n hn
    rw [issues_true_eq members hnd] at he
    obtain ⟨p, hp, hrd, rfl⟩ := (mem_issuesOf members e).mp he
    obtain ⟨d, hd, hdn⟩ := List.mem_map.mp hn
    have hd2 := List.mem_filter.mp hd
    refine ⟨p, hp, rfl, d, hd2.1, ?_, hdn⟩
    simpa using hd2.2
  · intro h
    rw [issues_true_eq members hnd]
    apply List.filterMap_eq_nil_iff.mpr
    intro p hp
    have hrd : registryDeps p = [] := by
      simp only [registryDeps, List.map_eq_nil_iff, List.filter_eq_nil_iff]
      intro d hd
      simpa using h p hp d hd
    rw [if_pos hrd]

/-- C10 witness: a workspace whose members declare only
workspace-inherited dependencies has an empty violation mapping. -/
theorem C10_only_registry_sourced_witness :
    mandatory_workspace_dependencies_issues true [memberA, memberB] = [] :=
  (C10_only_registry_sourced [memberA, memberB] (by decide)).2 (by decide)

end CargoNeat
